import Mathlib

/-
Shallow embedding of the display-width and segment-layout engine of the
`rich` repository (crates `cells`, `segment`, `utils`).  Text is modelled
as `List Char` (Rust iterates `str::chars()`); machine integers are `Nat`
and `Int` (all quantities stay far below any overflow boundary); the two
process-wide LRU caches are elided, since they only memoize values of the
pure functions modelled here.  A Rust `panic!` (out-of-bounds index) is
modelled by returning `none` from an `Option`-valued function.
-/

/-- Modelled from the spec: the width table `CELL_WIDTHS` lives in
`src/cells/src/cell_widths.rs`, which is declared (`mod cell_widths`) but
absent from the sources.  The spec fixes only its shape: entries
`(start, end, width)` denoting inclusive codepoint ranges, sorted
ascending by `start`, non-overlapping, with `width` drawn from
`{-1, 1, 2}`.  The development is therefore parameterized over any table
of this shape. -/
abbrev WidthTable : Type := List (Int × Int × Int)

/-- The spec's width-domain invariant: every stored width is -1, 1 or 2. -/
def widthDomain (tbl : WidthTable) : Prop :=
  ∀ t ∈ tbl, t.2.2 = -1 ∨ t.2.2 = 1 ∨ t.2.2 = 2

/-- The spec's ordering invariant: each range has `start ≤ end`, and the
ranges are sorted ascending and pairwise disjoint. -/
def tableSorted (tbl : WidthTable) : Prop :=
  (∀ t ∈ tbl, t.1 ≤ t.2.1) ∧ List.Pairwise (fun a b => a.2.1 < b.1) tbl

instance widthDomain.dec : DecidablePred widthDomain := fun tbl =>
  inferInstanceAs (Decidable (∀ t ∈ tbl, t.2.2 = -1 ∨ t.2.2 = 1 ∨ t.2.2 = 2))

instance tableSorted.dec : DecidablePred tableSorted := fun tbl => by
  unfold tableSorted
  infer_instance

/-- Entry lookup used by the binary search; Rust indexes
`table[index as usize]`, which panics when out of bounds — the search
provably stays in bounds for a non-empty table, and the default entry of
`getD` is never returned as a width (any codepoint reaching the search is
≥ 128 > 0). -/
def tableEnt (tbl : WidthTable) (index : Int) : Int × Int × Int :=
  List.getD tbl index.toNat (0, 0, 0)

/-- The binary-search loop of `get_codepoint_cell_size`
(src/cells/src/lib.rs:48-66).  Rust computes `index` before inspecting
and re-checks `upper < lower` after each bound adjustment; for a
non-empty table this is exactly the guard-first recursion below (the
source would panic on an empty table, where this returns the default 1).
`Int.tdiv` is Rust's `i32` division (truncation toward zero). -/
def searchLoop (tbl : WidthTable) (cp : Int) (lower upper : Int) : Nat :=
  if upper < lower then 1
  else
    let index := Int.tdiv (lower + upper) 2
    let t := tableEnt tbl index
    if cp < t.1 then
      searchLoop tbl cp lower (index - 1)
    else if cp > t.2.1 then
      searchLoop tbl cp (index + 1) upper
    else if t.2.2 = -1 then 0 else t.2.2.toNat
termination_by (upper + 1 - lower).toNat
decreasing_by
  all_goals
    rename_i hnot
    have hmid : lower ≤ Int.tdiv (lower + upper) 2 ∧
        Int.tdiv (lower + upper) 2 ≤ upper := by
      rcases le_or_lt 0 (lower + upper) with hs | hs
      · rw [Int.tdiv_eq_ediv hs (by norm_num)]
        omega
      · have h1 : lower + upper = -(-(lower + upper)) := by ring
        rw [h1, Int.neg_tdiv, Int.tdiv_eq_ediv (by omega) (by norm_num)]
        omega
    omega

/-- Get the cell size of a codepoint (src/cells/src/lib.rs:42-67); the
LRU cache is elided. -/
def cells.get_codepoint_cell_size (tbl : WidthTable) (codepoint : Nat) :
    Nat :=
  searchLoop tbl (codepoint : Int) 0 ((tbl.length : Int) - 1)

/-- Get the cell size of a character (src/cells/src/lib.rs:33-39):
ASCII fast path, otherwise table search. -/
def cells.get_character_cell_size (tbl : WidthTable) (c : Char) : Nat :=
  if c.toNat < 128 then 1 else cells.get_codepoint_cell_size tbl c.toNat

/-- Number of cells required to display text (src/cells/src/lib.rs:19-30);
the bounded LRU cache only memoizes this pure sum and is elided. -/
def cells.cell_len (tbl : WidthTable) (text : List Char) : Nat :=
  (text.map (cells.get_character_cell_size tbl)).sum

/-- The `while excess > 0 && character_sizes.len() > 0` pop loop of
`set_cell_size` (src/cells/src/lib.rs:81-83).  The argument list is the
reversed size vector (elements are popped from the end); the result is
the final `excess` and the number of sizes remaining. -/
def truncCount : Int → List Nat → Int × Nat
  | excess, [] => (excess, 0)
  | excess, w :: rest =>
    if 0 < excess then truncCount (excess - (w : Int)) rest
    else (excess, rest.length + 1)

/-- Set the length of a string to fit within a given number of cells
(src/cells/src/lib.rs:70-94). -/
def cells.set_cell_size (tbl : WidthTable) (text : List Char)
    (total : Nat) : List Char :=
  let cell_size := cells.cell_len tbl text
  if cell_size = total then text
  else if cell_size < total then
    text ++ List.replicate (total - cell_size) ' '
  else
    let character_sizes := text.map (cells.get_character_cell_size tbl)
    let r := truncCount ((cell_size : Int) - (total : Int))
      character_sizes.reverse
    let kept := text.take r.2
    if r.1 < 0 then kept ++ [' '] else kept

/-- The while-let loop of `chop_cells` (src/cells/src/lib.rs:105-115).
The `else` branch mutates `lines[lines.len() - 1]`, which panics when
`lines` is empty (usize underflow / unwrap of `None`): modelled as
`none`. -/
def chopGo (max_size : Nat) :
    List (Char × Nat) → Nat → List (List Char) →
    Option (List (List Char))
  | [], _, lines => some lines
  | (character, size) :: rest, total_size, lines =>
    if total_size + size > max_size then
      chopGo max_size rest size (lines ++ [[character]])
    else
      match lines.getLast? with
      | none => none
      | some lastLine =>
        chopGo max_size rest size
          (lines.dropLast ++ [lastLine ++ [character]])

/-- Break text in to equal (cell) length strings
(src/cells/src/lib.rs:97-125); characters are consumed in reverse. -/
def cells.chop_cells (tbl : WidthTable) (text : List Char)
    (max_size : Nat) (position : Nat) : Option (List (List Char)) :=
  chopGo max_size
    (text.reverse.map (fun c => (c, cells.get_character_cell_size tbl c)))
    position []

/-- A piece of text with associated style (src/segment/src/lib.rs:7-14).
`Style` is an external collaborator: an opaque equality-comparable type,
here a type parameter `σ`. -/
structure Segment (σ : Type) where
  text : List Char
  style : Option σ
  is_control : Bool
deriving DecidableEq

/-- Cell length of a segment (src/segment/src/lib.rs:44-50): 0 for a
control segment. -/
def Segment.cell_len {σ : Type} (tbl : WidthTable) (s : Segment σ) :
    Nat :=
  if s.is_control then 0 else cells.cell_len tbl s.text

/-- The merge loop of `SimplifiedSegments::next`
(src/segment/src/lib.rs:324-351): the accumulated segment absorbs the
next segment while styles agree and the incoming segment is not a
control segment; the merged segment is rebuilt with `is_control =
false`. -/
def simplifyAux {σ : Type} [DecidableEq σ] :
    Segment σ → List (Segment σ) → List (Segment σ)
  | acc, [] => [acc]
  | acc, s :: rest =>
    if acc.style = s.style ∧ s.is_control = false then
      simplifyAux ⟨acc.text ++ s.text, acc.style, false⟩ rest
    else
      acc :: simplifyAux s rest

/-- Simplify an iterable of segments by combining contiguous segments
with the same style (src/segment/src/lib.rs:271-276, 307-352), the
collected output of the `SimplifiedSegments` iterator. -/
def Segment.simplify {σ : Type} [DecidableEq σ] :
    List (Segment σ) → List (Segment σ)
  | [] => []
  | s :: rest => simplifyAux s rest

/-- Apply a style to an iterable of segments
(src/segment/src/lib.rs:67-89).  `cmb` is the external `Style::combine`
collaborator (`style.combine(s.style.as_ref())`); with no style argument
each segment is cloned unchanged. -/
def Segment.apply_style {σ : Type} (cmb : σ → Option σ → σ)
    (segments : List (Segment σ)) (style : Option σ) : List (Segment σ) :=
  segments.map fun s =>
    match style with
    | some st =>
      ⟨s.text, if s.is_control then none else some (cmb st s.style),
        s.is_control⟩
    | none => s

/-- The for loop of the over-length branch of `adjust_line_length`
(src/segment/src/lib.rs:130-142), threading `new_line` and the running
`line_length`; note the source has no `break` after truncating, and the
truncating branch leaves `line_length` unchanged. -/
def adjustGo {σ : Type} (tbl : WidthTable) (length : Nat) :
    List (Segment σ) → List (Segment σ) → Nat → List (Segment σ)
  | [], new_line, _ => new_line
  | segment :: rest, new_line, line_length =>
    let segment_length := Segment.cell_len tbl segment
    if line_length + segment_length < length ∨ segment.is_control = true then
      adjustGo tbl length rest (new_line ++ [segment])
        (line_length + segment_length)
    else
      adjustGo tbl length rest
        (new_line ++
          [⟨cells.set_cell_size tbl segment.text (length - line_length),
            segment.style, false⟩])
        line_length

/-- Adjust a line to a given width, cropping or padding as required
(src/segment/src/lib.rs:105-147). -/
def Segment.adjust_line_length {σ : Type} (tbl : WidthTable)
    (line : List (Segment σ)) (length : Nat) (style : Option σ)
    (padding : Option Bool) : List (Segment σ) :=
  let padding := padding.getD true
  let line_length := (line.map (Segment.cell_len tbl)).sum
  if line_length < length then
    if padding then
      line ++ [⟨List.replicate (length - line_length) ' ', style, false⟩]
    else line
  else if line_length > length then
    adjustGo tbl length line [] 0
  else line

/-- The inner `while !text.is_empty()` loop of `split_lines`
(src/segment/src/lib.rs:159-173): `splitn(2, '\n')` yields two parts
while a newline remains, else one part; each completed line is pushed
onto `res`. -/
def splitSegGo {σ : Type} (style : Option σ) :
    List Char → List (Segment σ) → List (List (Segment σ)) →
    List (Segment σ) × List (List (Segment σ))
  | [], line, res => (line, res)
  | c :: cs, line, res =>
    match h : (c :: cs).dropWhile (fun x => x ≠ '\n') with
    | [] => (line ++ [⟨c :: cs, style, false⟩], res)
    | _ :: next =>
      splitSegGo style next []
        (res ++
          [line ++ [⟨(c :: cs).takeWhile (fun x => x ≠ '\n'), style, false⟩]])
termination_by text _ _ => text.length
decreasing_by
  have hlen : ((c :: cs).dropWhile (fun x => x ≠ '\n')).length ≤
      (c :: cs).length := (List.dropWhile_sublist _).length_le
  rw [h] at hlen
  simp only [List.length_cons] at hlen ⊢
  omega

/-- The outer loop of `split_lines` (src/segment/src/lib.rs:154-181),
threading the current `line` and the accumulated `res`; the final
non-empty `line` is pushed. -/
def splitLinesGo {σ : Type} :
    List (Segment σ) → List (Segment σ) → List (List (Segment σ)) →
    List (List (Segment σ))
  | [], line, res => if line.isEmpty then res else res ++ [line]
  | segment :: rest, line, res =>
    if '\n' ∈ segment.text ∧ segment.is_control = false then
      let r := splitSegGo segment.style segment.text line res
      splitLinesGo rest r.1 r.2
    else
      splitLinesGo rest (line ++ [segment]) res

/-- Split a sequence of segments in to a list of lines
(src/segment/src/lib.rs:150-182). -/
def Segment.split_lines {σ : Type} (segments : List (Segment σ)) :
    List (List (Segment σ)) :=
  splitLinesGo segments [] []

/-- Unicode White_Space, the character class of both the regex `\s` used
by the `WORDS` pattern (src/utils/src/wrap.rs:8) and Rust's
`char::is_whitespace` used by `str::trim_end`. -/
def isWs (c : Char) : Bool :=
  (9 ≤ c.toNat && c.toNat ≤ 13) || c.toNat = 32 || c.toNat = 0x85 ||
    c.toNat = 0xA0 || c.toNat = 0x1680 ||
    (0x2000 ≤ c.toNat && c.toNat ≤ 0x200A) || c.toNat = 0x2028 ||
    c.toNat = 0x2029 || c.toNat = 0x202F || c.toNat = 0x205F ||
    c.toNat = 0x3000

/-- Rust `str::trim_end`: remove trailing whitespace. -/
def trimEnd (s : List Char) : List Char :=
  (s.reverse.dropWhile isWs).reverse

/-- UTF-8 byte length of a string; regex match offsets and Rust
`str::len` are byte-based. -/
def blen (s : List Char) : Nat :=
  (s.map Char.utf8Size).sum

/-- The `WordsMatchIterator` over successive `WORDS.find_at` matches
(src/utils/src/wrap.rs:11-41): each match of `\s*\S+\s*` starting at the
current position is a whitespace run, a maximal non-whitespace run, and
the trailing whitespace run; `(start, end, word)` offsets are byte
offsets.  No match remains when only whitespace is left.  `fuel` only
bounds the structural recursion: every step consumes at least one
character (the non-whitespace core is non-empty), so the initial fuel
`t.length` supplied by `words` is never exhausted. -/
def wordsGo : Nat → List Char → Nat → List (Nat × Nat × List Char)
  | 0, _, _ => []
  | fuel + 1, t, pos =>
    match t.dropWhile isWs with
    | [] => []
    | c :: r1 =>
      let lead := t.takeWhile isWs
      let core := c :: r1.takeWhile (fun x => !(isWs x))
      let r2 := r1.dropWhile (fun x => !(isWs x))
      let tail := r2.takeWhile isWs
      let r3 := r2.dropWhile isWs
      let word := lead ++ core ++ tail
      (pos, pos + blen word, word) :: wordsGo fuel r3 (pos + blen word)

/-- All word matches of a text, in order (src/utils/src/wrap.rs:39-41). -/
def words (text : List Char) : List (Nat × Nat × List Char) :=
  wordsGo text.length text 0

/-- The per-word body of `divide_line` (src/utils/src/wrap.rs:43-77),
folding over the word matches with the emitted `divides` and the running
`line_position`.  The `fold` branch iterates `loop_last` over the chunks
of `chop_cells` (whose panic propagates as `none`): every chunk but the
last advances `start` by its byte length and emits a divide; the last
sets `line_position` to its cell length. -/
def divideGo (tbl : WidthTable) (width : Nat) (fold : Bool) :
    List (Nat × Nat × List Char) → List Nat → Nat → Option (List Nat)
  | [], divides, _ => some divides
  | (start, _end, word) :: rest, divides, line_position =>
    let word_len := cells.cell_len tbl (trimEnd word)
    if line_position + word_len > width then
      if word_len > width then
        if fold then
          match cells.chop_cells tbl word width line_position with
          | none => none
          | some chunks =>
            match chunks.getLast? with
            | none => divideGo tbl width fold rest divides line_position
            | some lastChunk =>
              let acc := chunks.dropLast.foldl
                (fun (p : Nat × List Nat) line =>
                  (p.1 + blen line, p.2 ++ [p.1 + blen line]))
                (start, divides)
              divideGo tbl width fold rest acc.2
                (cells.cell_len tbl lastChunk)
        else
          divideGo tbl width fold rest
            (if start > 0 then divides ++ [start] else divides)
            (cells.cell_len tbl word)
      else
        if line_position > 0 ∧ start > 0 then
          divideGo tbl width fold rest (divides ++ [start])
            (cells.cell_len tbl word)
        else
          divideGo tbl width fold rest divides line_position
    else
      divideGo tbl width fold rest divides
        (line_position + cells.cell_len tbl word)

/-- Divide a line of text into width-bounded pieces
(src/utils/src/wrap.rs:43-77); returns the emitted byte-offset divides,
or `none` when `chop_cells` panics. -/
def divide_line (tbl : WidthTable) (text : List Char) (width : Nat)
    (fold : Option Bool) : Option (List Nat) :=
  divideGo tbl width (fold.getD true) (words text) [] 0

/-- Specification-side linear lookup: the first table entry whose
inclusive range covers the codepoint. -/
def coveringEntry (tbl : WidthTable) (cp : Int) :
    Option (Int × Int × Int) :=
  tbl.find? (fun t => decide (t.1 ≤ cp) && decide (cp ≤ t.2.1))

/-- Specification-side width normalization: a stored width of -1 means 0. -/
def normWidth (w : Int) : Nat :=
  if w = -1 then 0 else w.toNat

/-- Midpoint bounds for Rust's truncating division: for `lo ≤ up` the
probe index `(lo + up) / 2` lies in `[lo, up]`. -/
theorem tdiv_two_mid {lo up : Int} (h : lo ≤ up) :
    lo ≤ Int.tdiv (lo + up) 2 ∧ Int.tdiv (lo + up) 2 ≤ up := by
  rcases le_or_lt 0 (lo + up) with hs | hs
  · rw [Int.tdiv_eq_ediv hs (by norm_num)]
    omega
  · have h1 : lo + up = -(-(lo + up)) := by ring
    rw [h1, Int.neg_tdiv, Int.tdiv_eq_ediv (by omega) (by norm_num)]
    omega

/-- C1: spec says `adjust_line_length(line, N, padding=true)` always
returns segments of total cell width exactly `N`, truncating the first
overflowing segment and dropping all segments after it.  The source
omits the `break` after truncating (src/segment/src/lib.rs:137-141), so
later segments are still scanned against the stale `line_length` and
appended: on `[Segment "ab", Segment "x"]` with `N = 2` both segments
survive and the total width is 3, not 2. -/
theorem adjust_line_length_missing_break :
    Segment.adjust_line_length []
        ([⟨"ab".toList, none, false⟩, ⟨"x".toList, none, false⟩] :
          List (Segment Nat)) 2 none none =
      [⟨"ab".toList, none, false⟩, ⟨"x".toList, none, false⟩] ∧
    ((Segment.adjust_line_length []
        ([⟨"ab".toList, none, false⟩, ⟨"x".toList, none, false⟩] :
          List (Segment Nat)) 2 none none).map
      (Segment.cell_len [])).sum = 3 := by
  decide

/-- C3: spec says `chop_cells` partitions the characters into
width-bounded chunks in original left-to-right order.  The port seeds no
initial chunk, overwrites `total_size` instead of accumulating it, and
never reverses back: on `chop_cells("abcd", 2, 2)` it returns the single
chunk `"dcba"` — reversed, and of cell width 4 > 2. -/
theorem chop_cells_unordered_unbounded :
    cells.chop_cells [] ("abcd".toList) 2 2 = some ["dcba".toList] ∧
    cells.cell_len [] ("dcba".toList) = 4 := by
  decide

/-- C4: spec says every core operation is total on all inputs.
`chop_cells` hits `lines[lines.len() - 1]` with `lines` empty whenever
the first (rightmost) character fits the budget
(src/cells/src/lib.rs:112-113), a usize-underflow panic: modelled as
`none` on `chop_cells("ab", 2, 0)`. -/
theorem chop_cells_panic :
    cells.chop_cells [] ("ab".toList) 2 0 = none := by
  decide

/-- C5: spec says with `fold=true` every division produced by
`divide_line(text, width)` spans at most `width` cells.  Because
`chop_cells` never accumulates widths, `divide_line("ab cccc", 2)`
emits no divide at all, leaving a single division of cell width 7 > 2. -/
theorem divide_line_unbounded :
    divide_line [] ("ab cccc".toList) 2 (some true) = some [] ∧
    cells.cell_len [] ("ab cccc".toList) = 7 := by
  decide

/-- Whatever a merge run absorbs, every control-flagged segment of the
output of the merge loop is the accumulator or a member of the input. -/
theorem simplifyAux_control_mem {σ : Type} [DecidableEq σ] :
    ∀ (rest : List (Segment σ)) (acc t : Segment σ),
      t ∈ simplifyAux acc rest → t.is_control = true →
      t = acc ∨ t ∈ rest := by
  intro rest
  induction rest with
  | nil =>
    intro acc t ht _
    simp only [simplifyAux, List.mem_singleton] at ht
    exact Or.inl ht
  | cons s rs ih =>
    intro acc t ht hctl
    simp only [simplifyAux] at ht
    by_cases hcond : acc.style = s.style ∧ s.is_control = false
    · rw [if_pos hcond] at ht
      rcases ih _ t ht hctl with heq | hmem
      · rw [heq] at hctl
        simp at hctl
      · exact Or.inr (List.mem_cons_of_mem _ hmem)
    · rw [if_neg hcond] at ht
      rcases List.mem_cons.mp ht with heq | hmem
      · exact Or.inl heq
      · rcases ih s t hmem hctl with heq | hmem'
        · exact Or.inr (heq ▸ List.mem_cons_self _ _)
        · exact Or.inr (List.mem_cons_of_mem _ hmem')

/-- C6-counterexample: claim says a control segment always appears in
`simplify`'s output unchanged and its text is never combined with
another segment's.  A control segment that heads a run is merged with a
following non-control segment of identical style
(src/segment/src/lib.rs:336, which tests only the incoming segment's
flag): `[control "c", "a"]` simplifies to the single non-control
segment `"ca"`, and the control segment is gone. -/
theorem simplify_absorbs_head_control :
    Segment.simplify
        ([⟨"c".toList, none, true⟩, ⟨"a".toList, none, false⟩] :
          List (Segment Nat)) =
      [⟨"ca".toList, none, false⟩] ∧
    (⟨"c".toList, none, true⟩ : Segment Nat) ∉
      Segment.simplify
        ([⟨"c".toList, none, true⟩, ⟨"a".toList, none, false⟩] :
          List (Segment Nat)) := by
  decide

/-- C6: an incoming control segment always breaks a merge run (only
non-control segments of matching style are absorbed), and every segment
still flagged control in `simplify`'s output is an input segment passed
through unchanged; however a control segment that begins a run may
itself absorb a following non-control segment of identical style,
leaving a merged non-control segment instead. -/
theorem simplify_output_control_mem {σ : Type} [DecidableEq σ]
    (segs : List (Segment σ)) (t : Segment σ)
    (hmem : t ∈ Segment.simplify segs) (hctl : t.is_control = true) :
    t ∈ segs := by
  cases segs with
  | nil => simp [Segment.simplify] at hmem
  | cons s rest =>
    rcases simplifyAux_control_mem rest s t hmem hctl with heq | h
    · exact heq ▸ List.mem_cons_self _ _
    · exact List.mem_cons_of_mem _ h

/-- C6-witness: the membership theorem applied at a concrete run whose
single control segment survives unchanged. -/
theorem simplify_output_control_mem_witness :
    (⟨"c".toList, none, true⟩ : Segment Nat) ∈
      ([⟨"c".toList, none, true⟩, ⟨"a".toList, some 1, false⟩] :
        List (Segment Nat)) :=
  simplify_output_control_mem _ _ (by decide) (by decide)

/-- The first segment emitted by the merge loop carries the
accumulator's style. -/
theorem simplifyAux_head_style {σ : Type} [DecidableEq σ] :
    ∀ (rest : List (Segment σ)) (acc : Segment σ),
      ∃ h tl, simplifyAux acc rest = h :: tl ∧ h.style = acc.style := by
  intro rest
  induction rest with
  | nil =>
    intro acc
    exact ⟨acc, [], rfl, rfl⟩
  | cons s rs ih =>
    intro acc
    by_cases hcond : acc.style = s.style ∧ s.is_control = false
    · obtain ⟨h, tl, heq, hsty⟩ := ih ⟨acc.text ++ s.text, acc.style, false⟩
      exact ⟨h, tl, by simp [simplifyAux, if_pos hcond, heq], hsty⟩
    · obtain ⟨h, tl, heq, _⟩ := ih s
      exact ⟨acc, simplifyAux s rs, by simp [simplifyAux, if_neg hcond], rfl⟩

/-- On control-free input, the merge loop emits control-free segments
whose adjacent styles differ. -/
theorem simplifyAux_chain {σ : Type} [DecidableEq σ] :
    ∀ (rest : List (Segment σ)) (acc : Segment σ),
      acc.is_control = false → (∀ s ∈ rest, s.is_control = false) →
      (∀ t ∈ simplifyAux acc rest, t.is_control = false) ∧
        List.Chain' (fun a b => a.style ≠ b.style) (simplifyAux acc rest) := by
  intro rest
  induction rest with
  | nil =>
    intro acc hacc _
    refine ⟨?_, ?_⟩
    · intro t ht
      simp only [simplifyAux, List.mem_singleton] at ht
      exact ht ▸ hacc
    · simp [simplifyAux]
  | cons s rs ih =>
    intro acc hacc hrest
    have hs : s.is_control = false := hrest s (List.mem_cons_self _ _)
    have hrs : ∀ x ∈ rs, x.is_control = false :=
      fun x hx => hrest x (List.mem_cons_of_mem _ hx)
    by_cases hcond : acc.style = s.style ∧ s.is_control = false
    · have := ih ⟨acc.text ++ s.text, acc.style, false⟩ rfl hrs
      simpa [simplifyAux, if_pos hcond] using this
    · have hne : acc.style ≠ s.style := fun hstyeq => hcond ⟨hstyeq, hs⟩
      obtain ⟨hctl, hchain⟩ := ih s hs hrs
      obtain ⟨h, tl, heq, hsty⟩ := simplifyAux_head_style rs s
      refine ⟨?_, ?_⟩
      · intro t ht
        simp only [simplifyAux, if_neg hcond, List.mem_cons] at ht
        rcases ht with rfl | ht
        · exact hacc
        · exact hctl t ht
      · simp only [simplifyAux, if_neg hcond, heq]
        rw [List.chain'_cons]
        refine ⟨by rw [hsty]; exact hne, ?_⟩
        rw [← heq]
        exact hchain

/-- A list whose adjacent styles differ is a fixpoint of the merge
loop. -/
theorem simplifyAux_of_chain {σ : Type} [DecidableEq σ] :
    ∀ (rest : List (Segment σ)) (acc : Segment σ),
      List.Chain' (fun a b : Segment σ => a.style ≠ b.style) (acc :: rest) →
      simplifyAux acc rest = acc :: rest := by
  intro rest
  induction rest with
  | nil => intro acc _; rfl
  | cons s rs ih =>
    intro acc hchain
    rw [List.chain'_cons] at hchain
    have hcond : ¬(acc.style = s.style ∧ s.is_control = false) :=
      fun hc => hchain.1 hc.1
    simp only [simplifyAux, if_neg hcond]
    rw [ih s hchain.2]

/-- C7-counterexample: claim says `simplify` is idempotent.  A control
segment heading a run merges into a non-control segment whose style can
match its other neighbour, so a second pass merges further:
`["x", control "c", "y"]` (all style-free) simplifies to
`["x", "cy"]`, and simplifying again gives `["xcy"]`. -/
theorem simplify_not_idempotent :
    Segment.simplify (Segment.simplify
        ([⟨"x".toList, none, false⟩, ⟨"c".toList, none, true⟩,
          ⟨"y".toList, none, false⟩] : List (Segment Nat))) ≠
      Segment.simplify
        ([⟨"x".toList, none, false⟩, ⟨"c".toList, none, true⟩,
          ⟨"y".toList, none, false⟩] : List (Segment Nat)) := by
  decide

/-- C7: on sequences containing no control segment, `simplify` is
idempotent — one pass already leaves adjacent styles distinct, which a
second pass preserves unchanged.  (With control segments present
idempotence fails, see the counterexample.) -/
theorem simplify_idempotent_of_no_control {σ : Type} [DecidableEq σ]
    (segs : List (Segment σ))
    (hctl : ∀ s ∈ segs, s.is_control = false) :
    Segment.simplify (Segment.simplify segs) = Segment.simplify segs := by
  cases segs with
  | nil => rfl
  | cons s rest =>
    have hs : s.is_control = false := hctl s (List.mem_cons_self _ _)
    have hrest : ∀ x ∈ rest, x.is_control = false :=
      fun x hx => hctl x (List.mem_cons_of_mem _ hx)
    have hchain := (simplifyAux_chain rest s hs hrest).2
    show Segment.simplify (simplifyAux s rest) = simplifyAux s rest
    obtain ⟨h, tl, heq, _⟩ := simplifyAux_head_style rest s
    rw [heq]
    show simplifyAux h tl = h :: tl
    exact simplifyAux_of_chain tl h (heq ▸ hchain)

/-- C7-witness: idempotence applied at a concrete control-free run the
source tests (two reds then a blue merge to two segments). -/
theorem simplify_idempotent_of_no_control_witness :
    Segment.simplify (Segment.simplify
        ([⟨"Hello".toList, some 1, false⟩, ⟨" ".toList, some 1, false⟩,
          ⟨"World!".toList, some 2, false⟩] : List (Segment Nat))) =
      Segment.simplify
        ([⟨"Hello".toList, some 1, false⟩, ⟨" ".toList, some 1, false⟩,
          ⟨"World!".toList, some 2, false⟩] : List (Segment Nat)) :=
  simplify_idempotent_of_no_control _ (by decide)

/-- C9-counterexample: claim says `apply_style` forces every control
segment's style to none for any style argument "including none".  With
no style argument the source clones each segment unchanged
(src/segment/src/lib.rs:85-87), so a styled control segment keeps its
style. -/
theorem apply_style_none_keeps_control_style :
    Segment.apply_style (fun (a : Nat) (_ : Option Nat) => a)
        [⟨"x".toList, some 5, true⟩] none =
      [⟨"x".toList, some 5, true⟩] ∧
    (Segment.apply_style (fun (a : Nat) (_ : Option Nat) => a)
        [⟨"x".toList, some 5, true⟩] none).map Segment.style ≠ [none] := by
  decide

/-- C9: when a style argument is given, `apply_style` emits every
control segment with no style and every non-control segment with the
combination of the given style and its own; when the style argument is
none, all segments pass through unchanged (a control segment keeps any
style it already carries). -/
theorem apply_style_spec {σ : Type} (cmb : σ → Option σ → σ)
    (segs : List (Segment σ)) (st : σ) :
    Segment.apply_style cmb segs none = segs ∧
    List.Forall₂
      (fun s s' : Segment σ => s'.text = s.text ∧
        s'.is_control = s.is_control ∧
        s'.style = if s.is_control = true then none else some (cmb st s.style))
      segs (Segment.apply_style cmb segs (some st)) := by
  constructor
  · induction segs with
    | nil => rfl
    | cons s rest ih =>
      simp only [Segment.apply_style, List.map_cons] at ih ⊢
      rw [List.cons_inj_right]
      exact ih
  · induction segs with
    | nil => exact List.Forall₂.nil
    | cons s rest ih =>
      refine List.Forall₂.cons ⟨rfl, rfl, ?_⟩ ih
      by_cases h : s.is_control = true
      · simp [h]
      · simp [h]

/-- The inner split loop only ever pushes a line that has just received
a segment, so it preserves "every pushed line is non-empty". -/
theorem splitSegGo_nonempty {σ : Type} (style : Option σ) :
    ∀ (text : List Char) (line : List (Segment σ))
      (res : List (List (Segment σ))),
      (∀ l ∈ res, l ≠ []) →
      ∀ l ∈ (splitSegGo style text line res).2, l ≠ [] := by
  intro text line res hres
  induction text, line, res using splitSegGo.induct style with
  | case1 line res =>
    simpa [splitSegGo] using hres
  | case2 c cs line res h =>
    intro l hl
    simp only [splitSegGo] at hl
    split at hl
    · exact hres l hl
    · rename_i heq
      rw [h] at heq
      cases heq
  | case3 c cs line res hd next h ih =>
    intro l hl
    simp only [splitSegGo] at hl
    split at hl
    · rename_i heq
      rw [h] at heq
      cases heq
    · rename_i hd' next' heq
      rw [h] at heq
      cases heq
      refine ih ?_ l hl
      intro l' hl'
      rcases List.mem_append.mp hl' with hmem | hmem
      · exact hres l' hmem
      · rw [List.mem_singleton] at hmem
        subst hmem
        simp

/-- The outer split loop also only pushes non-empty lines (the final
push is guarded by `!line.is_empty()`). -/
theorem splitLinesGo_nonempty {σ : Type} :
    ∀ (segs line : List (Segment σ)) (res : List (List (Segment σ))),
      (∀ l ∈ res, l ≠ []) →
      ∀ l ∈ splitLinesGo segs line res, l ≠ [] := by
  intro segs
  induction segs with
  | nil =>
    intro line res hres l hl
    simp only [splitLinesGo] at hl
    split at hl
    · exact hres l hl
    · rename_i hline
      rcases List.mem_append.mp hl with hmem | hmem
      · exact hres l hmem
      · rw [List.mem_singleton] at hmem
        subst hmem
        intro hnil
        rw [hnil] at hline
        simp at hline
  | cons s rest ih =>
    intro line res hres l hl
    simp only [splitLinesGo] at hl
    split at hl
    · exact ih _ _ (splitSegGo_nonempty s.style s.text line res hres) l hl
    · exact ih _ _ hres l hl

/-- C10: every line returned by `split_lines` contains at least one
segment: a line is only completed right after a segment is pushed onto
it, and the empty remainder after a trailing newline is discarded by
the final `!line.is_empty()` guard (src/segment/src/lib.rs:178-180). -/
theorem split_lines_nonempty {σ : Type} (segs : List (Segment σ)) :
    ∀ l ∈ Segment.split_lines segs, l ≠ [] := by
  intro l hl
  exact splitLinesGo_nonempty segs [] [] (by simp) l hl

/-- C10-witness: the non-emptiness theorem applied to the concrete line
produced from a segment whose text ends in a newline (no empty trailing
line appears, and the one line produced is non-empty). -/
theorem split_lines_nonempty_witness :
    ([⟨"a".toList, none, false⟩] : List (Segment Nat)) ≠ [] :=
  split_lines_nonempty
    ([⟨"a".toList, none, false⟩] : List (Segment Nat)) _ (by decide)

/-- Unfolding of the search when the bounds have crossed: default 1. -/
theorem searchLoop_stop {tbl : WidthTable} {cp lower upper : Int}
    (h : upper < lower) : searchLoop tbl cp lower upper = 1 := by
  rw [searchLoop]
  simp [h]

/-- Unfolding of the search when the codepoint is below the probed range. -/
theorem searchLoop_lt {tbl : WidthTable} {cp lower upper : Int}
    (h : ¬ upper < lower)
    (hlt : cp < (tableEnt tbl (Int.tdiv (lower + upper) 2)).1) :
    searchLoop tbl cp lower upper =
      searchLoop tbl cp lower (Int.tdiv (lower + upper) 2 - 1) := by
  rw [searchLoop]
  simp [h, hlt]

/-- Unfolding of the search when the codepoint is above the probed range. -/
theorem searchLoop_gt {tbl : WidthTable} {cp lower upper : Int}
    (h : ¬ upper < lower)
    (hnlt : ¬ cp < (tableEnt tbl (Int.tdiv (lower + upper) 2)).1)
    (hgt : cp > (tableEnt tbl (Int.tdiv (lower + upper) 2)).2.1) :
    searchLoop tbl cp lower upper =
      searchLoop tbl cp (Int.tdiv (lower + upper) 2 + 1) upper := by
  rw [searchLoop]
  simp [h, hnlt, hgt]

/-- Unfolding of the search when the probed range covers the codepoint. -/
theorem searchLoop_found {tbl : WidthTable} {cp lower upper : Int}
    (h : ¬ upper < lower)
    (hnlt : ¬ cp < (tableEnt tbl (Int.tdiv (lower + upper) 2)).1)
    (hngt : ¬ cp > (tableEnt tbl (Int.tdiv (lower + upper) 2)).2.1) :
    searchLoop tbl cp lower upper =
      normWidth (tableEnt tbl (Int.tdiv (lower + upper) 2)).2.2 := by
  rw [searchLoop, normWidth]
  simp only [if_neg h, if_neg hnlt, if_neg hngt]

/-- An in-bounds probe is a table entry. -/
theorem tableEnt_mem {tbl : WidthTable} {index : Int} (h0 : 0 ≤ index)
    (hlen : index < (tbl.length : Int)) : tableEnt tbl index ∈ tbl := by
  have hn : index.toNat < tbl.length := by omega
  rw [tableEnt, List.getD_eq_getElem?_getD, List.getElem?_eq_getElem hn]
  simp only [Option.getD_some]
  exact List.getElem_mem hn

/-- Whatever the bounds, the search returns 1 or a normalized stored width. -/
theorem searchLoop_exit (tbl : WidthTable) (cp : Int) :
    ∀ lower upper : Int, 0 ≤ lower → upper < (tbl.length : Int) →
      searchLoop tbl cp lower upper = 1 ∨
        ∃ t ∈ tbl, searchLoop tbl cp lower upper = normWidth t.2.2 := by
  intro lower upper
  induction lower, upper using searchLoop.induct tbl cp with
  | case1 lower upper h =>
    intro _ _
    rw [searchLoop_stop h]
    exact Or.inl rfl
  | case2 lower upper h index t hlt ih =>
    intro h0 hup
    have hmid := tdiv_two_mid (by omega : lower ≤ upper)
    rw [searchLoop_lt h hlt]
    exact ih h0 (by omega)
  | case3 lower upper h index t hnlt hgt ih =>
    intro h0 hup
    have hmid := tdiv_two_mid (by omega : lower ≤ upper)
    rw [searchLoop_gt h hnlt hgt]
    exact ih (by omega) hup
  | case4 lower upper h index t hnlt hngt heq =>
    intro h0 hup
    have hmid := tdiv_two_mid (by omega : lower ≤ upper)
    rw [searchLoop_found h hnlt hngt]
    exact Or.inr ⟨_, tableEnt_mem (by omega) (by omega), rfl⟩
  | case5 lower upper h index t hnlt hngt hne =>
    intro h0 hup
    have hmid := tdiv_two_mid (by omega : lower ≤ upper)
    rw [searchLoop_found h hnlt hngt]
    exact Or.inr ⟨_, tableEnt_mem (by omega) (by omega), rfl⟩

/-- An in-bounds probe is the indexed table entry. -/
theorem tableEnt_eq {tbl : WidthTable} {index : Int}
    (hn : index.toNat < tbl.length) :
    tableEnt tbl index = tbl[index.toNat] := by
  rw [tableEnt, List.getD_eq_getElem?_getD, List.getElem?_eq_getElem hn]
  rfl

/-- A `find?` whose predicate first holds at index `i` returns that element. -/
theorem find?_eq_some_of_first {α : Type} (p : α → Bool) :
    ∀ (l : List α) (i : Nat) (hi : i < l.length), p l[i] = true →
      (∀ (j : Nat) (hj : j < l.length), j < i → p l[j] = false) →
      l.find? p = some l[i] := by
  intro l
  induction l with
  | nil =>
    intro i hi
    simp at hi
  | cons a t ih =>
    intro i hi hp hbef
    cases i with
    | zero =>
      simp only [List.getElem_cons_zero] at hp ⊢
      rw [List.find?_cons_of_pos _ hp]
    | succ n =>
      have ha : p a = false := by
        simpa using hbef 0 (by simp) (by omega)
      rw [List.find?_cons_of_neg _ (by simp [ha])]
      simp only [List.getElem_cons_succ] at hp ⊢
      refine ih n (by simpa using hi) hp ?_
      intro j hj hlt
      simpa using hbef (j + 1) (by simpa using hj) (by omega)

/-- On a sorted disjoint table the binary search agrees with the linear
lookup: the normalized width of the covering entry, or the default 1. -/
theorem searchLoop_correct (tbl : WidthTable) (cp : Int)
    (hsort : tableSorted tbl) :
    ∀ lower upper : Int, 0 ≤ lower → upper < (tbl.length : Int) →
      (∀ (i : Nat) (hi : i < tbl.length), (i : Int) < lower →
        (tbl[i]).2.1 < cp) →
      (∀ (i : Nat) (hi : i < tbl.length), upper < (i : Int) →
        cp < (tbl[i]).1) →
      searchLoop tbl cp lower upper =
        (match coveringEntry tbl cp with
         | some t => normWidth t.2.2
         | none => 1) := by
  have hpair := List.pairwise_iff_getElem.mp hsort.2
  intro lower upper
  induction lower, upper using searchLoop.induct tbl cp with
  | case1 lower upper h =>
    intro h0 hup hlo hhi
    rw [searchLoop_stop h]
    have hnone : coveringEntry tbl cp = none := by
      rw [coveringEntry, List.find?_eq_none]
      intro x hx
      obtain ⟨i, hi, rfl⟩ := List.mem_iff_getElem.mp hx
      simp only [Bool.and_eq_true, decide_eq_true_eq, not_and]
      intro hle
      rcases lt_or_le (i : Int) lower with hcase | hcase
      · have := hlo i hi hcase
        omega
      · have := hhi i hi (by omega)
        omega
    rw [hnone]
  | case2 lower upper h index t hlt ih =>
    intro h0 hup hlo hhi
    have hmid := tdiv_two_mid (by omega : lower ≤ upper)
    have hidxn : index.toNat < tbl.length := by omega
    have ht : t = tbl[index.toNat] := tableEnt_eq hidxn
    rw [searchLoop_lt h hlt]
    refine ih h0 (by omega) hlo ?_
    intro i hi hgt
    rcases lt_or_le (upper : Int) i with hcase | hcase
    · exact hhi i hi hcase
    · have hidx : index.toNat ≤ i := by omega
      rcases Nat.eq_or_lt_of_le hidx with heqi | hlti
      · subst heqi
        exact ht ▸ hlt
      · have hstart := hpair index.toNat i hidxn hi hlti
        have hse := hsort.1 (tbl[index.toNat]) (List.getElem_mem hidxn)
        rw [ht] at hlt
        omega
  | case3 lower upper h index t hnlt hgt ih =>
    intro h0 hup hlo hhi
    have hmid := tdiv_two_mid (by omega : lower ≤ upper)
    have hidxn : index.toNat < tbl.length := by omega
    have ht : t = tbl[index.toNat] := tableEnt_eq hidxn
    rw [searchLoop_gt h hnlt hgt]
    refine ih (by omega) hup ?_ hhi
    intro i hi hlt2
    have hile : i ≤ index.toNat := by omega
    rcases Nat.eq_or_lt_of_le hile with heqi | hlti
    · subst heqi
      exact ht ▸ hgt
    · have hend := hpair i index.toNat hi hidxn hlti
      have hse := hsort.1 (tbl[index.toNat]) (List.getElem_mem hidxn)
      rw [ht] at hgt
      omega
  | case4 lower upper h index t hnlt hngt heq =>
    intro h0 hup hlo hhi
    have hmid := tdiv_two_mid (by omega : lower ≤ upper)
    have hidxn : index.toNat < tbl.length := by omega
    have ht : t = tbl[index.toNat] := tableEnt_eq hidxn
    rw [searchLoop_found h hnlt hngt]
    have hsome : coveringEntry tbl cp = some (tbl[index.toNat]) := by
      rw [coveringEntry]
      refine find?_eq_some_of_first _ tbl index.toNat hidxn ?_ ?_
      · show (decide ((tbl[index.toNat]).1 ≤ cp) &&
          decide (cp ≤ (tbl[index.toNat]).2.1)) = true
        rw [← ht]
        simp only [Bool.and_eq_true, decide_eq_true_eq]
        omega
      · intro j hj hjlt
        show (decide ((tbl[j]).1 ≤ cp) &&
          decide (cp ≤ (tbl[j]).2.1)) = false
        have hend := hpair j index.toNat hj hidxn hjlt
        rw [← ht] at hend
        rw [Bool.eq_false_iff]
        simp only [ne_eq, Bool.and_eq_true, decide_eq_true_eq, not_and]
        intro hcon
        omega
    rw [hsome, tableEnt_eq hidxn]
  | case5 lower upper h index t hnlt hngt hne =>
    intro h0 hup hlo hhi
    have hmid := tdiv_two_mid (by omega : lower ≤ upper)
    have hidxn : index.toNat < tbl.length := by omega
    have ht : t = tbl[index.toNat] := tableEnt_eq hidxn
    rw [searchLoop_found h hnlt hngt]
    have hsome : coveringEntry tbl cp = some (tbl[index.toNat]) := by
      rw [coveringEntry]
      refine find?_eq_some_of_first _ tbl index.toNat hidxn ?_ ?_
      · show (decide ((tbl[index.toNat]).1 ≤ cp) &&
          decide (cp ≤ (tbl[index.toNat]).2.1)) = true
        rw [← ht]
        simp only [Bool.and_eq_true, decide_eq_true_eq]
        omega
      · intro j hj hjlt
        show (decide ((tbl[j]).1 ≤ cp) &&
          decide (cp ≤ (tbl[j]).2.1)) = false
        have hend := hpair j index.toNat hj hidxn hjlt
        rw [← ht] at hend
        rw [Bool.eq_false_iff]
        simp only [ne_eq, Bool.and_eq_true, decide_eq_true_eq, not_and]
        intro hcon
        omega
    rw [hsome, tableEnt_eq hidxn]

/-- C8: the cell-width resolver is total with values in {0, 1, 2}: an
ASCII character (codepoint < 128) resolves to 1 with no table lookup; a
non-ASCII codepoint covered by a table range of stored width -1 resolves
to 0 and otherwise to the stored width; a non-ASCII codepoint covered by
no range resolves to the default 1. -/
theorem width_resolver_spec (tbl : WidthTable) (hsort : tableSorted tbl)
    (hdom : widthDomain tbl) (c : Char) :
    (cells.get_character_cell_size tbl c = 0 ∨
      cells.get_character_cell_size tbl c = 1 ∨
      cells.get_character_cell_size tbl c = 2) ∧
    (c.toNat < 128 → cells.get_character_cell_size tbl c = 1) ∧
    (128 ≤ c.toNat →
      cells.get_character_cell_size tbl c =
        match coveringEntry tbl (c.toNat : Int) with
        | some t => normWidth t.2.2
        | none => 1) := by
  have h3 : 128 ≤ c.toNat →
      cells.get_character_cell_size tbl c =
        match coveringEntry tbl (c.toNat : Int) with
        | some t => normWidth t.2.2
        | none => 1 := by
    intro hge
    rw [cells.get_character_cell_size, if_neg (by omega),
      cells.get_codepoint_cell_size]
    refine searchLoop_correct tbl _ hsort 0 ((tbl.length : Int) - 1)
      (by omega) (by omega) ?_ ?_
    · intro i hi hlt
      omega
    · intro i hi hgt
      omega
  have h2 : c.toNat < 128 → cells.get_character_cell_size tbl c = 1 := by
    intro hlt
    rw [cells.get_character_cell_size, if_pos hlt]
  refine ⟨?_, h2, h3⟩
  by_cases hc : c.toNat < 128
  · exact Or.inr (Or.inl (h2 hc))
  · rw [h3 (by omega)]
    cases hfind : coveringEntry tbl (c.toNat : Int) with
    | none => exact Or.inr (Or.inl rfl)
    | some t =>
      have hmem := List.mem_of_find?_eq_some hfind
      rcases hdom t hmem with hw | hw | hw <;> simp [normWidth, hw]

/-- C8-witness: the resolver specification applied to a sorted
single-range table giving the double-width cat-face codepoint 128573
width 2 (the width the repository's own test asserts). -/
theorem width_resolver_spec_witness :
    tableSorted [(128573, 128573, 2)] ∧ widthDomain [(128573, 128573, 2)] ∧
    ((cells.get_character_cell_size [(128573, 128573, 2)] '😽' = 0 ∨
      cells.get_character_cell_size [(128573, 128573, 2)] '😽' = 1 ∨
      cells.get_character_cell_size [(128573, 128573, 2)] '😽' = 2) ∧
    ('😽'.toNat < 128 →
      cells.get_character_cell_size [(128573, 128573, 2)] '😽' = 1) ∧
    (128 ≤ '😽'.toNat →
      cells.get_character_cell_size [(128573, 128573, 2)] '😽' =
        match coveringEntry [(128573, 128573, 2)] (('😽'.toNat : Int)) with
        | some t => normWidth t.2.2
        | none => 1)) :=
  ⟨by decide, by decide,
    width_resolver_spec [(128573, 128573, 2)] (by decide) (by decide) '😽'⟩

/-- Under the spec's width domain every character resolves to at most 2
cells. -/
theorem get_character_cell_size_le_two (tbl : WidthTable)
    (hdom : widthDomain tbl) (c : Char) :
    cells.get_character_cell_size tbl c ≤ 2 := by
  rw [cells.get_character_cell_size]
  by_cases hc : c.toNat < 128
  · rw [if_pos hc]
    omega
  · rw [if_neg hc, cells.get_codepoint_cell_size]
    rcases searchLoop_exit tbl (c.toNat : Int) 0 ((tbl.length : Int) - 1)
        (by omega) (by omega) with h1 | ⟨t, hmem, heq⟩
    · rw [h1]
      omega
    · rw [heq]
      rcases hdom t hmem with hw | hw | hw <;> simp [normWidth, hw]

/-- The pop loop is the identity on a non-positive excess: it stops at
once, keeping every size. -/
theorem truncCount_nonpos (rev : List Nat) (excess : Int)
    (h : excess ≤ 0) : truncCount excess rev = (excess, rev.length) := by
  cases rev with
  | nil => rfl
  | cons w rest =>
    have hn : ¬ 0 < excess := by omega
    simp [truncCount, hn]

/-- Specification of the pop loop on the reversed size list: it keeps
`kept ≤ length` sizes, its final excess accounts exactly for the popped
prefix, never drops below -1 while the excess was positive and sizes
are at most 2, and it either exhausted the sizes or reached a
non-positive excess. -/
theorem truncCount_spec :
    ∀ (rev : List Nat) (excess : Int), (∀ w ∈ rev, w ≤ 2) →
      (truncCount excess rev).2 ≤ rev.length ∧
      (truncCount excess rev).1 =
        excess -
          ((rev.take (rev.length - (truncCount excess rev).2)).sum : Int) ∧
      (0 < excess → -1 ≤ (truncCount excess rev).1) ∧
      ((truncCount excess rev).2 = 0 ∨ (truncCount excess rev).1 ≤ 0) := by
  intro rev
  induction rev with
  | nil =>
    intro excess hw
    refine ⟨by simp [truncCount], by simp [truncCount], ?_, by simp [truncCount]⟩
    intro h
    simp only [truncCount]
    omega
  | cons w rest ih =>
    intro excess hw
    have hw2 : (w : Int) ≤ 2 := by
      exact_mod_cast hw w (List.mem_cons_self _ _)
    have hwr : ∀ x ∈ rest, x ≤ 2 :=
      fun x hx => hw x (List.mem_cons_of_mem _ hx)
    by_cases hpos : 0 < excess
    · obtain ⟨hB, hA, hC, hD⟩ := ih (excess - (w : Int)) hwr
      simp only [truncCount, if_pos hpos]
      refine ⟨?_, ?_, ?_, ?_⟩
      · simp only [List.length_cons]
        omega
      · have htake : (w :: rest).take
            (rest.length + 1 - (truncCount (excess - (w : Int)) rest).2) =
            w :: rest.take
              (rest.length - (truncCount (excess - (w : Int)) rest).2) := by
          have heq : rest.length + 1 -
              (truncCount (excess - (w : Int)) rest).2 =
              (rest.length - (truncCount (excess - (w : Int)) rest).2) + 1 := by
            omega
          rw [heq, List.take_succ_cons]
        simp only [List.length_cons, htake, List.sum_cons]
        rw [Nat.cast_add]
        omega
      · intro _
        rcases le_or_lt (excess - (w : Int)) 0 with hle | hlt
        · rw [truncCount_nonpos rest _ hle]
          simp only
          omega
        · exact hC hlt
      · exact hD
    · rw [truncCount_nonpos (w :: rest) excess (by omega)]
      simp only [List.length_cons]
      refine ⟨le_refl _, ?_, fun hp => absurd hp hpos, Or.inr (by omega)⟩
      simp

/-- C2: for every text and every target, the cell length of
`set_cell_size(text, target)` is exactly `target`: padding adds the
exact deficit of single-cell spaces, and truncation removes characters
until the excess is consumed, backfilling with one space when dropping
a double-width character overshoots by one cell. -/
theorem set_cell_size_len (tbl : WidthTable) (hdom : widthDomain tbl)
    (text : List Char) (total : Nat) :
    cells.cell_len tbl (cells.set_cell_size tbl text total) = total := by
  have hsp : cells.get_character_cell_size tbl ' ' = 1 := by
    rw [cells.get_character_cell_size, if_pos (by decide)]
  simp only [cells.set_cell_size]
  by_cases h1 : cells.cell_len tbl text = total
  · rw [if_pos h1]
    exact h1
  · rw [if_neg h1]
    by_cases h2 : cells.cell_len tbl text < total
    · rw [if_pos h2]
      rw [cells.cell_len, List.map_append, List.sum_append,
        List.map_replicate, hsp, List.sum_replicate, smul_eq_mul, mul_one,
        ← cells.cell_len]
      omega
    · rw [if_neg h2]
      have hgt : total < cells.cell_len tbl text := by omega
      have hwle : ∀ w ∈ (text.map (cells.get_character_cell_size tbl)).reverse,
          w ≤ 2 := by
        intro w hwmem
        rw [List.mem_reverse] at hwmem
        obtain ⟨c, _, rfl⟩ := List.mem_map.mp hwmem
        exact get_character_cell_size_le_two tbl hdom c
      obtain ⟨hB, hA, hC, hD⟩ := truncCount_spec
        (text.map (cells.get_character_cell_size tbl)).reverse
        ((cells.cell_len tbl text : Int) - (total : Int)) hwle
      have hpos : (0 : Int) < (cells.cell_len tbl text : Int) - (total : Int) := by
        omega
      rcases hre : truncCount
          ((cells.cell_len tbl text : Int) - (total : Int))
          (text.map (cells.get_character_cell_size tbl)).reverse with ⟨exF, kept⟩
      rw [hre] at hA hB hC hD
      simp only at hA hB hC hD ⊢
      have hsplit : ((text.map (cells.get_character_cell_size tbl)).reverse.take
          ((text.map (cells.get_character_cell_size tbl)).reverse.length - kept)).sum
          = ((text.map (cells.get_character_cell_size tbl)).drop kept).sum := by
        have hrev : (text.map (cells.get_character_cell_size tbl)).reverse =
            ((text.map (cells.get_character_cell_size tbl)).drop kept).reverse ++
              ((text.map (cells.get_character_cell_size tbl)).take kept).reverse := by
          rw [← List.reverse_append, List.take_append_drop]
        have hlen2 : ((text.map (cells.get_character_cell_size tbl)).drop kept).reverse.length =
            (text.map (cells.get_character_cell_size tbl)).reverse.length - kept := by
          simp
        rw [← hlen2, hrev, List.take_left, List.sum_reverse]
      rw [hsplit] at hA
      have hsumsplit : ((text.map (cells.get_character_cell_size tbl)).take kept).sum +
          ((text.map (cells.get_character_cell_size tbl)).drop kept).sum =
          cells.cell_len tbl text := by
        rw [cells.cell_len]
        exact List.sum_take_add_sum_drop _ _
      have hkeptlen : cells.cell_len tbl (text.take kept) =
          ((text.map (cells.get_character_cell_size tbl)).take kept).sum := by
        rw [cells.cell_len, List.map_take]
      by_cases hneg : exF < 0
      · rw [if_pos hneg]
        have hlen3 : cells.cell_len tbl (text.take kept ++ [' ']) =
            cells.cell_len tbl (text.take kept) + 1 := by
          rw [cells.cell_len, List.map_append, List.sum_append, ← cells.cell_len]
          simp [hsp]
        rw [hlen3, hkeptlen]
        have hm1 : exF = -1 := by
          have := hC hpos
          omega
        omega
      · rw [if_neg hneg]
        rw [hkeptlen]
        rcases hD with hk0 | hle0
        · subst hk0
          simp only [List.take_zero, List.sum_nil, List.drop_zero] at hA hsumsplit ⊢
          omega
        · omega

/-- C2-witness: the length law applied to the repository's own test
case `set_cell_size("foo", 4)` over a table satisfying the spec's width
domain. -/
theorem set_cell_size_len_witness :
    widthDomain [] ∧ cells.cell_len [] (cells.set_cell_size [] ("foo".toList) 4) = 4 :=
  ⟨by simp [widthDomain], set_cell_size_len [] (by simp [widthDomain]) ("foo".toList) 4⟩
